import Mathlib

/-!
Shallow embedding of the translation-lookup core of
`@devwizard/laravel-localizer-react` (file `src/useLocalizer.ts`) together
with a model of the Vite-plugin change watcher's debounce (whose source file
is not part of this snapshot and is therefore modelled from the spec).

Strings are manipulated as `List Char`; the JS string-replacement loop is
embedded as a fuelled structural scanner so that all definitions evaluate
by kernel reduction.
-/

namespace LaravelLocalizer

/-- Word character of the JS regex class `\w`: ASCII letters, digits, `_`. -/
def isWordChar (c : Char) : Bool := c.isAlphanum || c == '_'

/-- Wordness of an optional character; out-of-string counts as non-word,
matching the semantics of the JS `\b` assertion at a string edge. -/
def wordAt : Option Char → Bool
  | none => false
  | some c => isWordChar c

/-- Does the regex `:NAME\b` (built at `useLocalizer.ts:127` for a
word-character placeholder name) match at the start of `s`?  It requires the
literal `':' :: name` as a prefix and a word/non-word transition between the
last pattern character and the following character of `s`. -/
def colonMatchAt (name s : List Char) : Bool :=
  (':' :: name).isPrefixOf s &&
    (wordAt (':' :: name).getLast? != wordAt s[name.length + 1]?)

/-- Does the regex `\{NAME\}` (built at `useLocalizer.ts:128`) match at the
start of `s`?  It is a plain literal match of `{NAME}`. -/
def braceMatchAt (name s : List Char) : Bool :=
  ('{' :: name ++ ['}']).isPrefixOf s

/-- Replacement-text expansion of `String.prototype.replace`
(ECMAScript `GetSubstitution`): in the replacement string, `$$` inserts `$`,
`$&` inserts the matched text, a dollar followed by the backquote character
inserts the portion of the original string before the match, `$'` inserts the
portion after the match; everything else is literal (the patterns built by
`replacePlaceholders` have no capture groups, so `$n` is also literal). -/
def substDollar (m b a : List Char) : List Char → List Char
  | [] => []
  | c :: rest =>
    if c = '$' then
      match rest with
      | [] => ['$']
      | d :: rest2 =>
        if d = '$' then '$' :: substDollar m b a rest2
        else if d = '&' then m ++ substDollar m b a rest2
        else if d = Char.ofNat 96 then b ++ substDollar m b a rest2
        else if d = '\'' then a ++ substDollar m b a rest2
        else '$' :: d :: substDollar m b a rest2
    else c :: substDollar m b a rest

/-- Fuelled scanner embedding `text.replace(new RegExp(":" + name + "\\b", "g"), val)`
(`useLocalizer.ts:127`): global replace proceeds left to right, copies
non-matching characters, and resumes after the end of each match (the
inserted replacement text is never re-scanned by the same pass).  `before`
accumulates the already-consumed original characters (needed only for the
dollar escapes of `substDollar`).  The fuel is an upper bound on the scanned
length; every step consumes at least one character, so with fuel at least
`s.length` the zero-fuel branch is unreachable. -/
def replaceColonFuel (name val : List Char) : Nat → List Char → List Char → List Char
  | 0, _, _ => []
  | _ + 1, _, [] => []
  | fuel + 1, before, c :: rest =>
    if colonMatchAt name (c :: rest) then
      substDollar (':' :: name) before (rest.drop name.length) val ++
        replaceColonFuel name val fuel (before ++ ':' :: name) (rest.drop name.length)
    else
      c :: replaceColonFuel name val fuel (before ++ [c]) rest

/-- Global replacement of `:name` (word-boundary-terminated) by `val`. -/
def replaceColonAll (name val text : List Char) : List Char :=
  replaceColonFuel name val text.length [] text

/-- Fuelled scanner embedding `text.replace(new RegExp("\\{" + name + "\\}", "g"), val)`
(`useLocalizer.ts:128`), analogous to `replaceColonFuel`. -/
def replaceBraceFuel (name val : List Char) : Nat → List Char → List Char → List Char
  | 0, _, _ => []
  | _ + 1, _, [] => []
  | fuel + 1, before, c :: rest =>
    if braceMatchAt name (c :: rest) then
      substDollar ('{' :: name ++ ['}']) before (rest.drop (name.length + 1)) val ++
        replaceBraceFuel name val fuel (before ++ '{' :: name ++ ['}'])
          (rest.drop (name.length + 1))
    else
      c :: replaceBraceFuel name val fuel (before ++ [c]) rest

/-- Global replacement of `{name}` by `val`. -/
def replaceBraceAll (name val text : List Char) : List Char :=
  replaceBraceFuel name val text.length [] text

/-- A replacement value is a string or a number (`Replacements` maps names to
`string | number`, `useLocalizer.ts:30`).  Numbers are modelled as integers,
which covers the integral values this API is used with. -/
inductive RValue
  | str (s : String)
  | num (n : Int)
deriving DecidableEq

/-- The JS coercion `String(value)` for a replacement value. -/
def rvalToString : RValue → String
  | .str s => s
  | .num n => toString n

/-- A replacement set, in the order produced by `Object.entries`. -/
abbrev Replacements := List (String × RValue)

/-- A placeholder name whose spliced regexes `:NAME\b` and `\{NAME\}` are
valid and match `NAME` literally: names made of word characters only.  For
other names the raw splice at `useLocalizer.ts:127` produces regex
metacharacters; in particular `new RegExp` throws a `SyntaxError` for names
such as `"("`. -/
def literalName (name : String) : Bool := name.data.all isWordChar

/-- Processing of one replacement entry (`useLocalizer.ts:126-129`): the
colon pass runs first, then the brace pass runs on its output. -/
def applyEntry (text : List Char) (e : String × RValue) : List Char :=
  replaceBraceAll e.1.data (rvalToString e.2).data
    (replaceColonAll e.1.data (rvalToString e.2).data text)

/-- Embedding of `replacePlaceholders` (`useLocalizer.ts:122-131`).  With no
replacement set the text is returned as is.  Otherwise the entries are folded
over the text in order.  When some entry name is not a word-character name
the spliced pattern is not a literal match and `new RegExp` can throw (it
does for `"("`); the embedding returns `none` for such names. -/
def replacePlaceholders (text : String) : Option Replacements → Option String
  | none => some text
  | some reps =>
    if reps.all fun e => literalName e.1 then
      some (String.mk (reps.foldl applyEntry text.data))
    else
      none

/-- A per-locale translation table (`Record<string, string>`), as an
association list of the object's own enumerable data properties in the
object's key order, with pairwise-distinct keys. -/
abbrev TranslationTable := List (String × String)

/-- The own-property part of the JS read `translations[key]`: the stored
entry when the key is a direct entry of the object, else nothing.  A full
property access falls through to the prototype chain (`objectProtoMembers`,
`protoLookup`) when this returns `none`. -/
def lookupTable (tbl : TranslationTable) (key : String) : Option String :=
  (tbl.find? fun e => e.1 == key).map (·.2)

/-- The members a plain object inherits from `Object.prototype`, paired with
the string the coercion `String(value)` produces for the inherited value.
All inherited values are truthy non-strings: eleven are built-in functions,
whose stringification has the implementation-defined NativeFunction form
`function name() { [native code] }` shared by the major engines, and
`__proto__` is an accessor yielding `Object.prototype` itself, whose
stringification `[object Object]` is fixed by the language.  No claim
theorem depends on the exact rendered text, only on these keys being
present on the prototype chain with truthy non-string values. -/
def objectProtoMembers : TranslationTable :=
  [("constructor", "function Object() { [native code] }"),
   ("hasOwnProperty", "function hasOwnProperty() { [native code] }"),
   ("isPrototypeOf", "function isPrototypeOf() { [native code] }"),
   ("propertyIsEnumerable", "function propertyIsEnumerable() { [native code] }"),
   ("toLocaleString", "function toLocaleString() { [native code] }"),
   ("toString", "function toString() { [native code] }"),
   ("valueOf", "function valueOf() { [native code] }"),
   ("__proto__", "[object Object]"),
   ("__defineGetter__", "function __defineGetter__() { [native code] }"),
   ("__defineSetter__", "function __defineSetter__() { [native code] }"),
   ("__lookupGetter__", "function __lookupGetter__() { [native code] }"),
   ("__lookupSetter__", "function __lookupSetter__() { [native code] }")]

/-- The prototype-chain step of a JS property access on a plain object: the
`String(...)` rendering of the inherited `Object.prototype` member for that
key, or `none` when the key is not an inherited member name. -/
def protoLookup (key : String) : Option String :=
  (objectProtoMembers.find? fun e => e.1 == key).map (·.2)

/-- The tail `fallback || key` of the resolution chain: JS `||` takes the
fallback only when it is present and truthy (a nonempty string). -/
def orKey (fb : Option String) (key : String) : String :=
  match fb with
  | some f => if f = "" then key else f
  | none => key

/-- Embedding of `translations[key] || fallback || key`
(`useLocalizer.ts:198`).  The property access reads the own entry first (an
own entry shadows the prototype); an empty own entry is falsy and falls to
`fallback || key`.  With no own entry the access falls through to the
prototype chain: an inherited `Object.prototype` member is truthy, so the
chain stops there and `String(text)` yields its rendering.  Only when the
key is neither an own entry nor an inherited member name does the lookup
degrade to `fallback || key`. -/
def resolveText (tbl : TranslationTable) (key : String) (fb : Option String) : String :=
  match lookupTable tbl key with
  | some v => if v = "" then orKey fb key else v
  | none =>
    match protoLookup key with
    | some r => r
    | none => orKey fb key

/-- Embedding of the translation function `__` and its aliases `trans` and
`lang` (`useLocalizer.ts:196-202`): resolve the text, then substitute
placeholders.  `String(text)` is the identity on the resolved string. -/
def lang (tbl : TranslationTable) (key : String)
    (reps : Option Replacements) (fb : Option String) : Option String :=
  replacePlaceholders (resolveText tbl key fb) reps

/-- Embedding of `has` (`useLocalizer.ts:217-222`): the JS membership test
`key in translations` on the per-locale table.  The `in` operator walks the
prototype chain, so it also reports true for the member names a plain object
inherits from `Object.prototype` (for example `"toString" in {}` is true). -/
def has (tbl : TranslationTable) (key : String) : Bool :=
  (tbl.any fun e => e.1 == key) || (objectProtoMembers.any fun e => e.1 == key)

/-- Embedding of the object merge `{ ...replacements, count }`
(`useLocalizer.ts:229`): when the caller already supplied a `count` entry its
value is overwritten in place (JS property assignment keeps the original
insertion position); otherwise `count` is appended at the end. -/
def mergeCount (reps : Option Replacements) (count : Int) : Replacements :=
  if (reps.getD []).any fun e => e.1 == "count" then
    (reps.getD []).map fun e => if e.1 == "count" then ("count", RValue.num count) else e
  else
    reps.getD [] ++ [("count", RValue.num count)]

/-- Embedding of `choice` (`useLocalizer.ts:227-233`): merge `count` into the
replacement set and delegate to `__` with no fallback. -/
def choice (tbl : TranslationTable) (key : String) (count : Int)
    (reps : Option Replacements) : Option String :=
  lang tbl key (some (mergeCount reps count)) none

/-- Resolution of a name in a replacement set, viewed as a mapping. -/
def lookupEntry (reps : Replacements) (n : String) : Option RValue :=
  (reps.find? fun e => e.1 == n).map (·.2)

/-- Text direction. -/
inductive Dir
  | ltr
  | rtl
deriving DecidableEq

/-- Metadata for one available locale (`useLocalizer.ts:38-45`). -/
structure LocaleMeta where
  label : String
  flag : String
  dir : Dir
deriving DecidableEq

/-- The locale descriptor delivered in the page props
(`useLocalizer.ts:35-46`); `available` is optional. -/
structure LocaleData where
  current : String
  dir : Dir
  available : Option (List (String × LocaleMeta))
deriving DecidableEq

/-- Embedding of `props.locale?.current || 'en'` (`useLocalizer.ts:159`):
the default applies when the descriptor is absent, or when `current` is the
empty string (falsy). -/
def currentLocale (props : Option LocaleData) : String :=
  match props with
  | none => "en"
  | some l => if l.current = "" then "en" else l.current

/-- Embedding of `props.locale?.dir || 'ltr'` (`useLocalizer.ts:160`). -/
def textDirection (props : Option LocaleData) : Dir :=
  match props with
  | none => Dir.ltr
  | some l => l.dir

/-- Embedding of `props.locale?.available || {}` (`useLocalizer.ts:162`). -/
def availableLocales (props : Option LocaleData) : List (String × LocaleMeta) :=
  (props.bind (·.available)).getD []

/-- Embedding of `getLocales` (`useLocalizer.ts:238-240`):
`Object.keys(availableLocales)`. -/
def getLocales (props : Option LocaleData) : List String :=
  (availableLocales props).map (·.1)

/-- Embedding of `localizer.translations[locale] || {}` with a missing
global treated as no table (`useLocalizer.ts:165-191`): absence of the
global localizer object or of the locale's table degrades to the empty
table, never to an error.  The translations map is itself a plain object, so
a locale code colliding with an inherited `Object.prototype` member name
would make this access yield the inherited function rather than a table;
such locale codes are outside this model, and the theorem conjunct that uses
this definition assumes the locale is not such a name. -/
def translationsFor (globalTranslations : Option (List (String × TranslationTable)))
    (loc : String) : TranslationTable :=
  match globalTranslations with
  | none => []
  | some g =>
    match (g.find? fun e => e.1 == loc).map (·.2) with
    | some t => t
    | none => []

/-- Modelled from the spec: the Vite plugin source
(`vite-plugin-laravel-localizer.ts`) is not part of this snapshot, so the
change watcher's debounce is taken from the specification text: each
matching filesystem event re-arms a single pending timer to fire
`quietPeriodMs` after that event, and an event arriving before the pending
timer fires cancels and reschedules it.  Given the strictly increasing event
times, a regeneration therefore fires at `t + q` exactly for those events
`t` that are not followed within less than `q` by another event. -/
def debounceFires (q : Nat) : List Nat → List Nat
  | [] => []
  | [t] => [t + q]
  | t :: t' :: rest =>
    if t' < t + q then debounceFires q (t' :: rest)
    else (t + q) :: debounceFires q (t' :: rest)

/-- Modelled from the spec: a burst for quiet period `q` is a strictly
increasing event sequence whose consecutive gaps are all shorter than `q`. -/
def tightGaps (q : Nat) : List Nat → Bool
  | [] => true
  | [_] => true
  | t :: t' :: rest => (decide (t < t') && decide (t' < t + q)) && tightGaps q (t' :: rest)

/-! ### Supporting lemmas about the replacement scanners -/

theorem substDollar_of_not_mem (m b a v : List Char) (hv : '$' ∉ v) :
    substDollar m b a v = v := by
  induction v with
  | nil => rfl
  | cons c rest ih =>
    have hc : ¬c = '$' := fun h => hv (h ▸ List.mem_cons_self c rest)
    have hrest : '$' ∉ rest := fun h => hv (List.mem_cons_of_mem c h)
    rw [substDollar.eq_def]
    simp [hc, ih hrest]

theorem replaceColonFuel_nil (name val : List Char) (f : Nat) (b : List Char) :
    replaceColonFuel name val f b [] = [] := by
  cases f <;> rfl

theorem replaceBraceFuel_nil (name val : List Char) (f : Nat) (b : List Char) :
    replaceBraceFuel name val f b [] = [] := by
  cases f <;> rfl

theorem replaceColonFuel_congr (name val : List Char) (hval : '$' ∉ val) :
    ∀ f f' b b' s, s.length ≤ f → s.length ≤ f' →
      replaceColonFuel name val f b s = replaceColonFuel name val f' b' s := by
  intro f
  induction f using Nat.strong_induction_on with
  | _ f ih =>
    intro f' b b' s hf hf'
    cases s with
    | nil => rw [replaceColonFuel_nil, replaceColonFuel_nil]
    | cons c rest =>
      simp only [List.length_cons] at hf hf'
      cases f with
      | zero => omega
      | succ g =>
        cases f' with
        | zero => omega
        | succ g' =>
          simp only [replaceColonFuel]
          have hd : (rest.drop name.length).length ≤ rest.length := by
            rw [List.length_drop]; omega
          by_cases h : colonMatchAt name (c :: rest) = true
          · rw [if_pos h, if_pos h]
            rw [substDollar_of_not_mem _ _ _ _ hval, substDollar_of_not_mem _ _ _ _ hval]
            have := ih g (by omega) g' (b ++ ':' :: name) (b' ++ ':' :: name)
              (rest.drop name.length) (by omega) (by omega)
            rw [this]
          · rw [if_neg h, if_neg h]
            have := ih g (by omega) g' (b ++ [c]) (b' ++ [c]) rest (by omega) (by omega)
            rw [this]

theorem replaceBraceFuel_congr (name val : List Char) (hval : '$' ∉ val) :
    ∀ f f' b b' s, s.length ≤ f → s.length ≤ f' →
      replaceBraceFuel name val f b s = replaceBraceFuel name val f' b' s := by
  intro f
  induction f using Nat.strong_induction_on with
  | _ f ih =>
    intro f' b b' s hf hf'
    cases s with
    | nil => rw [replaceBraceFuel_nil, replaceBraceFuel_nil]
    | cons c rest =>
      simp only [List.length_cons] at hf hf'
      cases f with
      | zero => omega
      | succ g =>
        cases f' with
        | zero => omega
        | succ g' =>
          simp only [replaceBraceFuel]
          have hd : (rest.drop (name.length + 1)).length ≤ rest.length := by
            rw [List.length_drop]; omega
          by_cases h : braceMatchAt name (c :: rest) = true
          · rw [if_pos h, if_pos h]
            rw [substDollar_of_not_mem _ _ _ _ hval, substDollar_of_not_mem _ _ _ _ hval]
            have := ih g (by omega) g' (b ++ '{' :: name ++ ['}']) (b' ++ '{' :: name ++ ['}'])
              (rest.drop (name.length + 1)) (by omega) (by omega)
            rw [this]
          · rw [if_neg h, if_neg h]
            have := ih g (by omega) g' (b ++ [c]) (b' ++ [c]) rest (by omega) (by omega)
            rw [this]

theorem colonMatchAt_extract (name : List Char) (c : Char) (rest : List Char)
    (h : colonMatchAt name (c :: rest) = true) :
    c = ':' ∧ rest = name ++ rest.drop name.length := by
  unfold colonMatchAt at h
  have hpre := (Bool.and_eq_true _ _).mp h |>.1
  rw [List.isPrefixOf_iff_prefix] at hpre
  obtain ⟨t, ht⟩ := hpre
  simp only [List.cons_append] at ht
  injection ht with h1 h2
  subst h2
  refine ⟨h1.symm, ?_⟩
  rw [List.drop_left]

theorem braceMatchAt_extract (name : List Char) (c : Char) (rest : List Char)
    (h : braceMatchAt name (c :: rest) = true) :
    c = '{' ∧ rest = name ++ '}' :: rest.drop (name.length + 1) := by
  unfold braceMatchAt at h
  rw [List.isPrefixOf_iff_prefix] at h
  obtain ⟨t, ht⟩ := h
  simp only [List.cons_append, List.append_assoc, List.singleton_append,
    List.nil_append] at ht
  injection ht with h1 h2
  subst h2
  refine ⟨h1.symm, ?_⟩
  have hlen : name.length + 1 = (name ++ ['}']).length := by simp
  have hdrop : List.drop (name.length + 1) (name ++ '}' :: t) = t := by
    rw [show name ++ '}' :: t = (name ++ ['}']) ++ t by
      rw [List.append_assoc, List.singleton_append], hlen, List.drop_left]
  rw [hdrop]

theorem braceMatchAt_self (name s : List Char) :
    braceMatchAt name ('{' :: name ++ '}' :: s) = true := by
  unfold braceMatchAt
  rw [List.isPrefixOf_iff_prefix]
  exact ⟨s, by simp⟩

theorem replaceColon_occ (name val : List Char) (hval : '$' ∉ val) :
    ∀ p s, colonMatchAt name (':' :: name ++ s) = true →
      (∀ i, i < p.length → colonMatchAt name ((p ++ ':' :: name ++ s).drop i) = false) →
      replaceColonAll name val (p ++ ':' :: name ++ s)
        = p ++ val ++ replaceColonAll name val s := by
  intro p
  induction p with
  | nil =>
    intro s hm _
    simp only [List.nil_append]
    show replaceColonFuel name val (':' :: name ++ s).length [] (':' :: name ++ s)
      = val ++ replaceColonAll name val s
    rw [show ':' :: name ++ s = ':' :: (name ++ s) from rfl]
    rw [List.length_cons]
    simp only [replaceColonFuel]
    rw [if_pos (by simpa using hm)]
    rw [substDollar_of_not_mem _ _ _ _ hval, List.drop_left]
    have hc := replaceColonFuel_congr name val hval (name ++ s).length s.length
      ([] ++ ':' :: name) [] s (by simp) le_rfl
    rw [hc]
    rfl
  | cons c p' ih =>
    intro s hm hp
    have h0 : ¬colonMatchAt name (c :: (p' ++ ':' :: name ++ s)) = true := by
      have := hp 0 (by simp)
      simpa using this
    show replaceColonFuel name val (c :: (p' ++ ':' :: name ++ s)).length []
      (c :: (p' ++ ':' :: name ++ s)) = (c :: p') ++ val ++ replaceColonAll name val s
    rw [List.length_cons]
    simp only [replaceColonFuel]
    rw [if_neg h0]
    have hc := replaceColonFuel_congr name val hval (p' ++ ':' :: name ++ s).length
      (p' ++ ':' :: name ++ s).length ([] ++ [c]) [] (p' ++ ':' :: name ++ s) le_rfl le_rfl
    rw [hc]
    have hp' : ∀ i, i < p'.length →
        colonMatchAt name ((p' ++ ':' :: name ++ s).drop i) = false := by
      intro i hi
      have := hp (i + 1) (by simp only [List.length_cons]; omega)
      simpa [List.drop_succ_cons] using this
    have hall : replaceColonFuel name val (p' ++ ':' :: name ++ s).length []
        (p' ++ ':' :: name ++ s) = replaceColonAll name val (p' ++ ':' :: name ++ s) := rfl
    rw [hall, ih s hm hp']
    simp

theorem replaceBrace_occ (name val : List Char) (hval : '$' ∉ val) :
    ∀ p s,
      (∀ i, i < p.length → braceMatchAt name ((p ++ '{' :: name ++ '}' :: s).drop i) = false) →
      replaceBraceAll name val (p ++ '{' :: name ++ '}' :: s)
        = p ++ val ++ replaceBraceAll name val s := by
  intro p
  induction p with
  | nil =>
    intro s _
    simp only [List.nil_append]
    show replaceBraceFuel name val ('{' :: name ++ '}' :: s).length [] ('{' :: name ++ '}' :: s)
      = val ++ replaceBraceAll name val s
    rw [show '{' :: name ++ '}' :: s = '{' :: (name ++ '}' :: s) from rfl]
    rw [List.length_cons]
    simp only [replaceBraceFuel]
    rw [if_pos (by simpa using braceMatchAt_self name s)]
    rw [substDollar_of_not_mem _ _ _ _ hval]
    have hdrop : List.drop (name.length + 1) (name ++ '}' :: s) = s := by
      rw [show name ++ '}' :: s = (name ++ ['}']) ++ s by
        rw [List.append_assoc, List.singleton_append],
        show name.length + 1 = (name ++ ['}']).length by simp, List.drop_left]
    rw [hdrop]
    have hc := replaceBraceFuel_congr name val hval (name ++ '}' :: s).length s.length
      ([] ++ '{' :: name ++ ['}']) [] s
      (by simp only [List.length_append, List.length_cons]; omega) le_rfl
    rw [hc]
    rfl
  | cons c p' ih =>
    intro s hp
    have h0 : ¬braceMatchAt name (c :: (p' ++ '{' :: name ++ '}' :: s)) = true := by
      have := hp 0 (by simp)
      simpa using this
    show replaceBraceFuel name val (c :: (p' ++ '{' :: name ++ '}' :: s)).length []
      (c :: (p' ++ '{' :: name ++ '}' :: s)) = (c :: p') ++ val ++ replaceBraceAll name val s
    rw [List.length_cons]
    simp only [replaceBraceFuel]
    rw [if_neg h0]
    have hc := replaceBraceFuel_congr name val hval (p' ++ '{' :: name ++ '}' :: s).length
      (p' ++ '{' :: name ++ '}' :: s).length ([] ++ [c]) [] (p' ++ '{' :: name ++ '}' :: s)
      le_rfl le_rfl
    rw [hc]
    have hp' : ∀ i, i < p'.length →
        braceMatchAt name ((p' ++ '{' :: name ++ '}' :: s).drop i) = false := by
      intro i hi
      have := hp (i + 1) (by simp only [List.length_cons]; omega)
      simpa [List.drop_succ_cons] using this
    have hall : replaceBraceFuel name val (p' ++ '{' :: name ++ '}' :: s).length []
        (p' ++ '{' :: name ++ '}' :: s) = replaceBraceAll name val (p' ++ '{' :: name ++ '}' :: s) := rfl
    rw [hall, ih s hp']
    simp

theorem wordName_not_dollar (name : List Char) (hname : name.all isWordChar = true) :
    '$' ∉ name := by
  intro hmem
  exact absurd (List.all_eq_true.mp hname _ hmem) (by decide)

theorem replaceColonFuel_self (name : List Char) (hname : name.all isWordChar = true) :
    ∀ f s b, s.length ≤ f → replaceColonFuel name (':' :: name) f b s = s := by
  have hval : '$' ∉ ':' :: name := by
    intro hmem
    rcases List.mem_cons.mp hmem with h | h
    · exact absurd h (by decide)
    · exact wordName_not_dollar name hname h
  intro f
  induction f with
  | zero =>
    intro s b hs
    have : s = [] := List.length_eq_zero.mp (Nat.le_zero.mp hs)
    subst this
    rfl
  | succ g ih =>
    intro s b hs
    cases s with
    | nil => exact replaceColonFuel_nil ..
    | cons c rest =>
      simp only [List.length_cons] at hs
      by_cases h : colonMatchAt name (c :: rest) = true
      · obtain ⟨hc, hrest⟩ := colonMatchAt_extract name c rest h
        simp only [replaceColonFuel]
        rw [if_pos h]
        rw [substDollar_of_not_mem _ _ _ _ hval]
        rw [ih (rest.drop name.length) _ (by rw [List.length_drop]; omega)]
        rw [hc]
        exact congrArg (':' :: ·) hrest.symm
      · simp only [replaceColonFuel]
        rw [if_neg h]
        exact congrArg (c :: ·) (ih rest _ (by omega))

theorem replaceBraceFuel_self (name : List Char) (hname : name.all isWordChar = true) :
    ∀ f s b, s.length ≤ f → replaceBraceFuel name ('{' :: name ++ ['}']) f b s = s := by
  have hval : '$' ∉ '{' :: name ++ ['}'] := by
    intro hmem
    rcases List.mem_cons.mp hmem with h | h
    · exact absurd h (by decide)
    · rcases List.mem_append.mp h with h' | h'
      · exact wordName_not_dollar name hname h'
      · exact absurd (List.mem_singleton.mp h') (by decide)
  intro f
  induction f with
  | zero =>
    intro s b hs
    have : s = [] := List.length_eq_zero.mp (Nat.le_zero.mp hs)
    subst this
    rfl
  | succ g ih =>
    intro s b hs
    cases s with
    | nil => exact replaceBraceFuel_nil ..
    | cons c rest =>
      simp only [List.length_cons] at hs
      by_cases h : braceMatchAt name (c :: rest) = true
      · obtain ⟨hc, hrest⟩ := braceMatchAt_extract name c rest h
        simp only [replaceBraceFuel]
        rw [if_pos h]
        rw [substDollar_of_not_mem _ _ _ _ hval]
        rw [ih (rest.drop (name.length + 1)) _ (by rw [List.length_drop]; omega)]
        rw [hc]
        conv_rhs => rw [hrest]
        simp
      · simp only [replaceBraceFuel]
        rw [if_neg h]
        exact congrArg (c :: ·) (ih rest _ (by omega))

/-! ### Supporting lemmas about the replacement-set merge of `choice` -/

theorem lookupEntry_append_count (l : Replacements) (c : Int)
    (h : (l.any fun e => e.1 == "count") = false) :
    lookupEntry (l ++ [("count", RValue.num c)]) "count" = some (RValue.num c) := by
  induction l with
  | nil => rfl
  | cons e t ih =>
    simp only [List.any_cons, Bool.or_eq_false_iff] at h
    obtain ⟨he, ht⟩ := h
    show (List.find? (fun e => e.1 == "count") (e :: (t ++ [("count", RValue.num c)]))).map (·.2)
      = some (RValue.num c)
    rw [List.find?_cons]
    simp only [he]
    exact ih ht

theorem lookupEntry_map_count (l : Replacements) (c : Int)
    (h : (l.any fun e => e.1 == "count") = true) :
    lookupEntry (l.map fun e => if e.1 == "count" then ("count", RValue.num c) else e) "count"
      = some (RValue.num c) := by
  induction l with
  | nil => simp at h
  | cons e t ih =>
    by_cases he : (e.1 == "count") = true
    · show (List.find? (fun e => e.1 == "count")
        ((if e.1 == "count" then ("count", RValue.num c) else e) ::
          (t.map fun e => if e.1 == "count" then ("count", RValue.num c) else e))).map (·.2)
        = some (RValue.num c)
      rw [if_pos he, List.find?_cons]
      simp
    · have ht : (t.any fun e => e.1 == "count") = true := by
        simp only [List.any_cons] at h
        rcases Bool.or_eq_true_iff.mp h with h' | h'
        · exact absurd h' he
        · exact h'
      show (List.find? (fun e => e.1 == "count")
        ((if e.1 == "count" then ("count", RValue.num c) else e) ::
          (t.map fun e => if e.1 == "count" then ("count", RValue.num c) else e))).map (·.2)
        = some (RValue.num c)
      rw [if_neg he, List.find?_cons]
      simp only [Bool.not_eq_true] at he
      simp only [he]
      exact ih ht

theorem lookupEntry_append_other (l : Replacements) (c : Int) (n : String)
    (hn : ("count" == n) = false) :
    lookupEntry (l ++ [("count", RValue.num c)]) n = lookupEntry l n := by
  induction l with
  | nil =>
    show (List.find? (fun e => e.1 == n) [("count", RValue.num c)]).map (·.2)
      = lookupEntry [] n
    rw [List.find?_cons]
    simp only [hn]
    rfl
  | cons e t ih =>
    show (List.find? (fun e => e.1 == n) (e :: (t ++ [("count", RValue.num c)]))).map (·.2)
      = (List.find? (fun e => e.1 == n) (e :: t)).map (·.2)
    rw [List.find?_cons, List.find?_cons]
    by_cases he : (e.1 == n) = true
    · simp only [he]
    · simp only [Bool.not_eq_true] at he
      simp only [he]
      exact ih

theorem lookupEntry_map_other (l : Replacements) (c : Int) (n : String)
    (hn : ("count" == n) = false) :
    lookupEntry (l.map fun e => if e.1 == "count" then ("count", RValue.num c) else e) n
      = lookupEntry l n := by
  induction l with
  | nil => rfl
  | cons e t ih =>
    show (List.find? (fun e => e.1 == n)
      ((if e.1 == "count" then ("count", RValue.num c) else e) ::
        (t.map fun e => if e.1 == "count" then ("count", RValue.num c) else e))).map (·.2)
      = (List.find? (fun e => e.1 == n) (e :: t)).map (·.2)
    by_cases he : (e.1 == "count") = true
    · have he' : e.1 = "count" := eq_of_beq he
      rw [if_pos he, List.find?_cons, List.find?_cons]
      simp only [he', hn]
      exact ih
    · rw [if_neg he, List.find?_cons, List.find?_cons]
      by_cases hen : (e.1 == n) = true
      · simp only [hen]
      · simp only [Bool.not_eq_true] at hen
        simp only [hen]
        exact ih

/-- Existence of a matching entry agrees between `List.any` and the
`List.find?`-based lookup used by `lookupTable` and `protoLookup`. -/
theorem lookup_isSome_eq_any (l : TranslationTable) (key : String) :
    (l.any fun e => e.1 == key) = ((l.find? fun e => e.1 == key).map (·.2)).isSome := by
  induction l with
  | nil => rfl
  | cons e t ih =>
    rw [List.any_cons, List.find?_cons]
    by_cases he : (e.1 == key) = true
    · rw [he]
      simp
    · simp only [Bool.not_eq_true] at he
      rw [he]
      simpa using ih

/-! ### Supporting lemmas about the debounce model -/

theorem debounceFires_tight (q : Nat) :
    ∀ (ts : List Nat) (t : Nat), tightGaps q (t :: ts) = true →
      debounceFires q (t :: ts) = [ts.getLastD t + q] := by
  intro ts
  induction ts with
  | nil => intro t _; rfl
  | cons t' r ih =>
    intro t h
    simp only [tightGaps, Bool.and_eq_true, decide_eq_true_eq] at h
    obtain ⟨⟨_, h2⟩, h3⟩ := h
    simp only [debounceFires]
    rw [if_pos h2, ih t' h3, List.getLastD_cons]

theorem debounceFires_two (q : Nat) :
    ∀ (ts1 : List Nat) (t1 t2 : Nat) (ts2 : List Nat),
      tightGaps q (t1 :: ts1) = true → tightGaps q (t2 :: ts2) = true →
      ts1.getLastD t1 + q < t2 →
      debounceFires q ((t1 :: ts1) ++ t2 :: ts2)
        = [ts1.getLastD t1 + q, ts2.getLastD t2 + q] := by
  intro ts1
  induction ts1 with
  | nil =>
    intro t1 t2 ts2 _ h2 hsep
    have hsep' : t1 + q < t2 := hsep
    simp only [List.cons_append, List.nil_append]
    simp only [debounceFires]
    rw [if_neg (by omega), debounceFires_tight q ts2 t2 h2]
    rfl
  | cons t' r ih =>
    intro t1 t2 ts2 h1 h2 hsep
    simp only [tightGaps, Bool.and_eq_true, decide_eq_true_eq] at h1
    obtain ⟨⟨_, hgap⟩, h1'⟩ := h1
    simp only [List.getLastD_cons] at hsep ⊢
    simp only [List.cons_append]
    simp only [debounceFires]
    rw [if_pos hgap]
    have := ih t' t2 ts2 h1' h2 hsep
    simp only [List.cons_append] at this
    exact this

/-! ### Claims -/

/-- C1 counterexample: the claim fails for a key stored with the empty
template.  `translations[key] || fallback || key` treats the empty string as
falsy, so `__("k")` returns the key `"k"`, not the stored template `""`. -/
theorem c1_counterexample :
    lang [("k", "")] "k" none none = some "k" ∧ ("k" : String) ≠ "" := by
  decide

/-- C1 (amended): for every key present in the current locale's table with a
nonempty stored template, `__` with no replacements returns the stored
template unchanged. -/
theorem c1_theorem (tbl : TranslationTable) (key v : String)
    (hfind : lookupTable tbl key = some v) (hne : v ≠ "") :
    lang tbl key none none = some v := by
  unfold lang resolveText
  rw [hfind]
  simp only [if_neg hne]
  rfl

/-- Witness for C1 at a concrete table. -/
theorem c1_witness :
    lang [("welcome", "Welcome")] "welcome" none none = some "Welcome" :=
  c1_theorem [("welcome", "Welcome")] "welcome" "Welcome" (by decide) (by decide)

/-- C2 counterexample: the claim fails in two ways.  A supplied empty
fallback is falsy, so `fallback || key` skips it and the key is returned,
not the supplied fallback.  And for a key such as `"toString"` that is
absent as a direct entry, the property access hits the member inherited from
`Object.prototype`, which is truthy, so `__` returns the stringified
inherited function — neither the key nor the supplied fallback. -/
theorem c2_counterexample :
    (lang [] "missing" none (some "") = some "missing" ∧ ("missing" : String) ≠ "")
  ∧ (lang [] "toString" none (some "fb") ≠ some "toString"
      ∧ lang [] "toString" none (some "fb") ≠ some "fb") := by
  decide

/-- C2 (amended): for every key absent from the current locale's table that
is not a member name inherited from `Object.prototype`, `__` returns the key
itself when no fallback is supplied, returns the fallback when a nonempty
fallback is supplied, and returns the key again when the supplied fallback
is the empty string; a locale missing from the global translation map (its
code likewise not an inherited member name) degrades to the empty table,
whose lookups return the key. -/
theorem c2_theorem :
    (∀ (tbl : TranslationTable) (key : String),
        lookupTable tbl key = none → protoLookup key = none →
        lang tbl key none none = some key)
  ∧ (∀ (tbl : TranslationTable) (key fb : String),
        lookupTable tbl key = none → protoLookup key = none → fb ≠ "" →
        lang tbl key none (some fb) = some fb)
  ∧ (∀ (tbl : TranslationTable) (key : String),
        lookupTable tbl key = none → protoLookup key = none →
        lang tbl key none (some "") = some key)
  ∧ (∀ (g : List (String × TranslationTable)) (loc key : String),
        (g.find? fun e => e.1 == loc) = none → protoLookup loc = none →
        protoLookup key = none →
        lang (translationsFor (some g) loc) key none none = some key) := by
  refine ⟨?_, ?_, ?_, ?_⟩
  · intro tbl key h hp
    unfold lang resolveText
    rw [h, hp]
    rfl
  · intro tbl key fb h hp hfb
    unfold lang resolveText orKey
    rw [h, hp]
    simp only [if_neg hfb]
    rfl
  · intro tbl key h hp
    unfold lang resolveText
    rw [h, hp]
    rfl
  · intro g loc key h _ hp
    have ht : translationsFor (some g) loc = [] := by
      simp only [translationsFor]
      rw [h]
      rfl
    rw [ht]
    unfold lang resolveText
    rw [hp]
    rfl

/-- Witness for C2 at concrete inputs. -/
theorem c2_witness :
    lang [("a", "b")] "missing" none none = some "missing"
  ∧ lang [("a", "b")] "missing" none (some "Fallback") = some "Fallback"
  ∧ lang [("a", "b")] "missing" none (some "") = some "missing"
  ∧ lang (translationsFor (some [("en", [("a", "b")])]) "fr") "a" none none = some "a" :=
  ⟨c2_theorem.1 [("a", "b")] "missing" (by decide) (by decide),
   c2_theorem.2.1 [("a", "b")] "missing" "Fallback" (by decide) (by decide) (by decide),
   c2_theorem.2.2.1 [("a", "b")] "missing" (by decide) (by decide),
   c2_theorem.2.2.2 [("en", [("a", "b")])] "fr" "a" (by decide) (by decide) (by decide)⟩

/-- C3 counterexample: the claim fails for a replacement name containing a
regex metacharacter.  `replacePlaceholders` splices the raw name into
`new RegExp(":" + key + "\\b", "g")`; for the name `"("` the pattern is an
unterminated group, `new RegExp` throws a `SyntaxError`, and `__` does not
return a string (modelled as `none`). -/
theorem c3_counterexample :
    lang [] "k" (some [("(", RValue.str "v")]) none = none := by
  decide

/-- C3 (amended): for every key, every fallback, and every replacement set
whose names consist only of word characters (so that the spliced regexes are
valid and match literally), `__` terminates normally and returns a string;
the values are unrestricted. -/
theorem c3_theorem (tbl : TranslationTable) (key : String)
    (reps : Option Replacements) (fb : Option String)
    (h : ∀ e ∈ reps.getD [], literalName e.1 = true) :
    (lang tbl key reps fb).isSome = true := by
  unfold lang
  cases reps with
  | none => rfl
  | some rs =>
    show (replacePlaceholders (resolveText tbl key fb) (some rs)).isSome = true
    simp only [replacePlaceholders]
    have hall : (rs.all fun e => literalName e.1) = true :=
      List.all_eq_true.mpr fun e he => h e (by simpa using he)
    rw [if_pos hall]
    rfl

/-- Witness for C3 at a concrete replacement set. -/
theorem c3_witness :
    (lang [("greeting.hello", "Hello :name!")] "greeting.hello"
      (some [("name", RValue.str "John"), ("count", RValue.num 7)]) none).isSome = true :=
  c3_theorem [("greeting.hello", "Hello :name!")] "greeting.hello"
    (some [("name", RValue.str "John"), ("count", RValue.num 7)]) none (by decide)

/-- C4 counterexample: the claim fails for a value whose string
representation contains a dollar sign.  `String.prototype.replace` expands
`$$` in the replacement text to `$`, so the occurrence is not replaced with
the value's string representation `"$$"`. -/
theorem c4_counterexample :
    replacePlaceholders ":x" (some [("x", RValue.str "$$")]) = some "$"
  ∧ ("$" : String) ≠ "$$" := by
  decide

/-- C4 (amended): for every word-character placeholder name and every value
whose string representation contains no dollar sign, every
word-boundary-terminated occurrence of `:name` and every occurrence of
`{name}` is replaced with the value (stated compositionally: the first such
occurrence is replaced and the remainder is processed identically); a
numeric value of 0 is substituted as "0", and both syntaxes are replaced in
one template. -/
theorem c4_theorem :
    (∀ name val p s : List Char, '$' ∉ val →
        colonMatchAt name (':' :: name ++ s) = true →
        (∀ i, i < p.length → colonMatchAt name ((p ++ ':' :: name ++ s).drop i) = false) →
        replaceColonAll name val (p ++ ':' :: name ++ s)
          = p ++ val ++ replaceColonAll name val s)
  ∧ (∀ name val p s : List Char, '$' ∉ val →
        (∀ i, i < p.length → braceMatchAt name ((p ++ '{' :: name ++ '}' :: s).drop i) = false) →
        replaceBraceAll name val (p ++ '{' :: name ++ '}' :: s)
          = p ++ val ++ replaceBraceAll name val s)
  ∧ lang [("items.count", "You have :count items")] "items.count"
      (some [("count", RValue.num 0)]) none = some "You have 0 items"
  ∧ lang [("greeting", "Hello :name! Hi {name}!")] "greeting"
      (some [("name", RValue.str "John")]) none = some "Hello John! Hi John!" := by
  refine ⟨?_, ?_, by decide, by decide⟩
  · intro name val p s hval hm hp
    exact replaceColon_occ name val hval p s hm hp
  · intro name val p s hval hp
    exact replaceBrace_occ name val hval p s hp

/-- Witness for C4 at concrete occurrences of both syntaxes. -/
theorem c4_witness :
    replaceColonAll "name".data "John".data ("Hi ".data ++ ':' :: "name".data ++ "!".data)
      = "Hi ".data ++ "John".data ++ replaceColonAll "name".data "John".data "!".data
  ∧ replaceBraceAll "name".data "John".data
      ("Hi ".data ++ '{' :: "name".data ++ '}' :: "!".data)
      = "Hi ".data ++ "John".data ++ replaceBraceAll "name".data "John".data "!".data :=
  ⟨c4_theorem.1 "name".data "John".data "Hi ".data "!".data (by decide) (by decide) (by decide),
   c4_theorem.2.1 "name".data "John".data "Hi ".data "!".data (by decide) (by decide)⟩

/-- C5 counterexample: substitution is not order-independent and substituted
values are re-scanned by the passes of later names.  On the template `":a"`
with replacements `a` to `":b"` and `b` to `"Z"`, processing `a` first yields
`"Z"` (the substituted value `":b"` is further substituted by the later `b`
pass), while processing `b` first yields `":b"`. -/
theorem c5_counterexample :
    replacePlaceholders ":a" (some [("a", RValue.str ":b"), ("b", RValue.str "Z")]) = some "Z"
  ∧ replacePlaceholders ":a" (some [("b", RValue.str "Z"), ("a", RValue.str ":b")]) = some ":b"
  ∧ ("Z" : String) ≠ ":b" := by
  decide

/-- C5 (amended): entries are processed sequentially in entry order, so the
result may depend on that order and earlier-substituted values are re-scanned
by later names' passes; within a single name, however, the pass is single and
not recursive: replacing a word-character name's placeholder by that very
placeholder is the identity on every text — the inserted value is never
re-scanned for the same name. -/
theorem c5_theorem (name s : List Char) (hname : name.all isWordChar = true) :
    replaceColonAll name (':' :: name) s = s
  ∧ replaceBraceAll name ('{' :: name ++ ['}']) s = s :=
  ⟨replaceColonFuel_self name hname s.length s [] le_rfl,
   replaceBraceFuel_self name hname s.length s [] le_rfl⟩

/-- Witness for C5 at a concrete name and text. -/
theorem c5_witness :
    replaceColonAll "x".data (':' :: "x".data) ":x and {x}".data = ":x and {x}".data
  ∧ replaceBraceAll "x".data ('{' :: "x".data ++ ['}']) ":x and {x}".data
      = ":x and {x}".data :=
  c5_theorem "x".data ":x and {x}".data (by decide)

/-- C6: `choice` equals `__` applied to the same key with the replacement set
merged with `count` under the name `"count"` and with no fallback; the merged
set maps `"count"` to the supplied count (overriding any caller-supplied
entry) and every other name to its caller-supplied value. -/
theorem c6_theorem :
    (∀ (tbl : TranslationTable) (key : String) (count : Int) (reps : Option Replacements),
        choice tbl key count reps = lang tbl key (some (mergeCount reps count)) none
      ∧ lookupEntry (mergeCount reps count) "count" = some (RValue.num count)
      ∧ ∀ n, n ≠ "count" →
          lookupEntry (mergeCount reps count) n = lookupEntry (reps.getD []) n)
  ∧ choice [("user.items", ":name has :count items")] "user.items" 3
      (some [("name", RValue.str "Alice")]) = some "Alice has 3 items" := by
  refine ⟨?_, by decide⟩
  intro tbl key count reps
  refine ⟨rfl, ?_, ?_⟩
  · unfold mergeCount
    by_cases h : ((reps.getD []).any fun e => e.1 == "count") = true
    · rw [if_pos h]
      exact lookupEntry_map_count _ _ h
    · rw [if_neg h]
      exact lookupEntry_append_count _ _ ((Bool.not_eq_true _) ▸ h)
  · intro n hn
    have hcn : ("count" == n) = false := by
      rw [beq_eq_false_iff_ne]
      exact fun hh => hn hh.symm
    unfold mergeCount
    by_cases h : ((reps.getD []).any fun e => e.1 == "count") = true
    · rw [if_pos h]
      exact lookupEntry_map_other _ count n hcn
    · rw [if_neg h]
      exact lookupEntry_append_other _ count n hcn

/-- Witness for C6 at a concrete replacement set that already contains a
`count` entry. -/
theorem c6_witness :
    choice [] "k" 5 (some [("name", RValue.str "A"), ("count", RValue.num 9)])
      = lang [] "k"
          (some (mergeCount (some [("name", RValue.str "A"), ("count", RValue.num 9)]) 5)) none
  ∧ lookupEntry (mergeCount (some [("name", RValue.str "A"), ("count", RValue.num 9)]) 5)
      "count" = some (RValue.num 5)
  ∧ lookupEntry (mergeCount (some [("name", RValue.str "A"), ("count", RValue.num 9)]) 5)
      "name" = lookupEntry [("name", RValue.str "A"), ("count", RValue.num 9)] "name" := by
  obtain ⟨h1, h2, h3⟩ :=
    c6_theorem.1 [] "k" 5 (some [("name", RValue.str "A"), ("count", RValue.num 9)])
  exact ⟨h1, h2, h3 "name" (by decide)⟩

/-- C7 counterexample: the claim fails for a key inherited from
`Object.prototype`.  The JS `in` operator walks the prototype chain, so
`has("toString")` returns true on the empty table even though `"toString"`
is not a direct entry. -/
theorem c7_counterexample :
    has [] "toString" = true ∧ lookupTable [] "toString" = none := by
  decide

/-- C7 (amended): `has` returns true exactly when the key is a direct entry
of the current locale's table or a member name inherited from
`Object.prototype`; for every key that is not an inherited member name, it
returns true exactly when the key is a direct entry.  The check depends only
on the keys (so the stored value, including the empty string, is
irrelevant), and `has` takes no fallback, so fallback configuration cannot
influence it. -/
theorem c7_theorem :
    (∀ (tbl : TranslationTable) (key : String),
        has tbl key = ((lookupTable tbl key).isSome || (protoLookup key).isSome))
  ∧ (∀ (tbl : TranslationTable) (key : String), protoLookup key = none →
        has tbl key = (lookupTable tbl key).isSome) := by
  constructor
  · intro tbl key
    unfold has lookupTable protoLookup
    rw [lookup_isSome_eq_any tbl key, lookup_isSome_eq_any objectProtoMembers key]
  · intro tbl key h
    unfold has lookupTable
    rw [lookup_isSome_eq_any tbl key]
    have hp : (objectProtoMembers.any fun e => e.1 == key) = false := by
      have hh := lookup_isSome_eq_any objectProtoMembers key
      rw [show ((objectProtoMembers.find? fun e => e.1 == key).map (·.2)) = none from h] at hh
      simpa using hh
    rw [hp]
    simp

/-- Witness for C7 at a concrete non-inherited key stored with the empty
string. -/
theorem c7_witness :
    has [("k", "")] "k" = (lookupTable [("k", "")] "k").isSome :=
  c7_theorem.2 [("k", "")] "k" (by decide)

/-- C8: with no locale descriptor supplied, the accessor defaults: the
current locale is "en", the text direction is left-to-right, and the
available locale codes are the empty sequence; the absence of the descriptor
is never an error. -/
theorem c8_theorem :
    currentLocale none = "en" ∧ textDirection none = Dir.ltr
  ∧ availableLocales none = [] ∧ getLocales none = [] :=
  ⟨rfl, rfl, rfl, rfl⟩

/-- C9 (spec-modelled watcher): a burst of matching events whose consecutive
gaps are all shorter than the quiet period triggers exactly one regeneration,
fired the quiet period after the last event of the burst; two such bursts
separated by more than the quiet period trigger exactly two, one per burst. -/
theorem c9_theorem :
    (∀ (q t : Nat) (ts : List Nat), tightGaps q (t :: ts) = true →
        debounceFires q (t :: ts) = [ts.getLastD t + q])
  ∧ (∀ (q t1 t2 : Nat) (ts1 ts2 : List Nat),
        tightGaps q (t1 :: ts1) = true → tightGaps q (t2 :: ts2) = true →
        ts1.getLastD t1 + q < t2 →
        debounceFires q ((t1 :: ts1) ++ t2 :: ts2)
          = [ts1.getLastD t1 + q, ts2.getLastD t2 + q]) :=
  ⟨fun q t ts h => debounceFires_tight q ts t h,
   fun q t1 t2 ts1 ts2 h1 h2 hsep => debounceFires_two q ts1 t1 t2 ts2 h1 h2 hsep⟩

/-- Witness for C9: five events in one burst give one firing; two separated
bursts give two firings. -/
theorem c9_witness :
    debounceFires 300 [0, 100, 200, 250, 280] = [580]
  ∧ debounceFires 300 [0, 100, 1000, 1200] = [400, 1500] :=
  ⟨c9_theorem.1 300 0 [100, 200, 250, 280] (by decide),
   c9_theorem.2 300 0 1000 [100] [1200] (by decide) (by decide) (by decide)⟩

/-- C10: an empty-string replacement value is substituted (deleting the
placeholder text), not treated as absent: every word-boundary-terminated
occurrence of `:name` is deleted from the output, and on the spec's example
template the lookup yields "Hello !". -/
theorem c10_theorem :
    (∀ name p s : List Char,
        colonMatchAt name (':' :: name ++ s) = true →
        (∀ i, i < p.length → colonMatchAt name ((p ++ ':' :: name ++ s).drop i) = false) →
        replaceColonAll name [] (p ++ ':' :: name ++ s) = p ++ replaceColonAll name [] s)
  ∧ lang [("greeting.hello", "Hello :name!")] "greeting.hello"
      (some [("name", RValue.str "")]) none = some "Hello !" := by
  refine ⟨?_, by decide⟩
  intro name p s hm hp
  have := replaceColon_occ name [] (by simp) p s hm hp
  simpa using this

/-- Witness for C10 at the spec's example template. -/
theorem c10_witness :
    replaceColonAll "name".data [] ("Hello ".data ++ ':' :: "name".data ++ "!".data)
      = "Hello ".data ++ replaceColonAll "name".data [] "!".data :=
  c10_theorem.1 "name".data "Hello ".data "!".data (by decide) (by decide)

end LaravelLocalizer
